import Mathlib

/-!
Verification of the decoding cursor of src/src/decoder.rs.

Bytes are modelled as natural numbers, a buffer as a list of bytes, and the
usize offset arithmetic as natural numbers with an explicit bound USIZE_MAX.
Each cursor method of the Rust source is embedded as a state-passing function
returning its result together with the post-state of the cursor; on every
failure path the Rust method returns before assigning the index, so the
embedded function returns the unchanged cursor there.  A Rust panic
(out-of-bounds indexing inside a chunk) is modelled by an outer Option, with
none standing for the panic.
-/

deriving instance DecidableEq for Except

/-- Maximum value of the usize offset type (64-bit target). -/
def USIZE_MAX : Nat := 2 ^ 64 - 1

/-- usize::checked_add: the sum, unless it leaves the usize range. -/
def checked_add (a b : Nat) : Option Nat :=
  if a + b ≤ USIZE_MAX then some (a + b) else none

/-- Decode errors of the decoder.  The variants AddOverflow, EndOfBuffer
(carrying the attempted end index) and NotEnoughBytes are named directly in
decoder.rs; invalidEncoding is the Invalid-Encoding kind of the error
taxonomy. -/
inductive DecodeError where
  | addOverflow
  | endOfBuffer (index : Nat)
  | notEnoughBytes
  | invalidEncoding
deriving DecidableEq, Repr

/-- Modelled from the spec: the error module is not under src/, so the From
conversions applied by the question-mark operator to UTF-8 validation
failures, nul-termination failures and fixed-size slice-conversion failures
are mapped to the Invalid-Encoding error kind of the taxonomy in section 7 of
the spec. -/
def conversionError : DecodeError := .invalidEncoding

/-- Rust slice range indexing buffer.get(start..stop): some slice exactly when
start ≤ stop and stop ≤ length. -/
def sliceGet (buf : List Nat) (start stop : Nat) : Option (List Nat) :=
  if start ≤ stop ∧ stop ≤ buf.length then some ((buf.drop start).take (stop - start))
  else none

/-- Decoder: borrowed byte buffer plus index of the read position. -/
structure Decoder where
  buffer : List Nat
  index : Nat
deriving DecidableEq, Repr

/-- Decoder::new: cursor at index 0. -/
def Decoder.new (buffer : List Nat) : Decoder := ⟨buffer, 0⟩

/-- Decoder::read::<N>: fixed-width read of N bytes.  Computes
end = index + N with checked addition, indexes the buffer with the range
index..end, converts the slice to a fixed-size array (the length test models
try_into, whose failure the question-mark operator converts), and only then
advances the index. -/
def Decoder.read (d : Decoder) (N : Nat) : Except DecodeError (List Nat) × Decoder :=
  match checked_add d.index N with
  | none => (.error .addOverflow, d)
  | some e =>
    match sliceGet d.buffer d.index e with
    | none => (.error (.endOfBuffer e), d)
    | some bytes =>
      if bytes.length = N then (.ok bytes, { d with index := e })
      else (.error conversionError, d)

/-- Big-endian (network byte order) interpretation of a byte sequence, as in
uN::from_be_bytes. -/
def from_be_bytes (bytes : List Nat) : Nat :=
  bytes.foldl (fun acc b => acc * 256 + b) 0

/-- Decoder::read_u8. -/
def Decoder.read_u8 (d : Decoder) : Except DecodeError Nat × Decoder :=
  match d.read 1 with
  | (.ok bytes, d2) => (.ok (from_be_bytes bytes), d2)
  | (.error e, d2) => (.error e, d2)

/-- Decoder::read_u16. -/
def Decoder.read_u16 (d : Decoder) : Except DecodeError Nat × Decoder :=
  match d.read 2 with
  | (.ok bytes, d2) => (.ok (from_be_bytes bytes), d2)
  | (.error e, d2) => (.error e, d2)

/-- Decoder::read_u32. -/
def Decoder.read_u32 (d : Decoder) : Except DecodeError Nat × Decoder :=
  match d.read 4 with
  | (.ok bytes, d2) => (.ok (from_be_bytes bytes), d2)
  | (.error e, d2) => (.error e, d2)

/-- Decoder::read_u64. -/
def Decoder.read_u64 (d : Decoder) : Except DecodeError Nat × Decoder :=
  match d.read 8 with
  | (.ok bytes, d2) => (.ok (from_be_bytes bytes), d2)
  | (.error e, d2) => (.error e, d2)

/-- i32::from_be_bytes: two's-complement signed interpretation of four
big-endian bytes. -/
def i32_from_be_bytes (bytes : List Nat) : Int :=
  if from_be_bytes bytes < 2 ^ 31 then (from_be_bytes bytes : Int)
  else (from_be_bytes bytes : Int) - 2 ^ 32

/-- Decoder::read_i32. -/
def Decoder.read_i32 (d : Decoder) : Except DecodeError Int × Decoder :=
  match d.read 4 with
  | (.ok bytes, d2) => (.ok (i32_from_be_bytes bytes), d2)
  | (.error e, d2) => (.error e, d2)

/-- Decoder::read_bool: reads one byte via read_u8; true iff it equals 1. -/
def Decoder.read_bool (d : Decoder) : Except DecodeError Bool × Decoder :=
  match d.read_u8 with
  | (.ok v, d2) => (.ok (decide (v = 1)), d2)
  | (.error e, d2) => (.error e, d2)

/-- Decoder::read_slice: runtime-length read, same bound checks as read but
returning the borrowed slice without a fixed-size conversion. -/
def Decoder.read_slice (d : Decoder) (len : Nat) : Except DecodeError (List Nat) × Decoder :=
  match checked_add d.index len with
  | none => (.error .addOverflow, d)
  | some e =>
    match sliceGet d.buffer d.index e with
    | none => (.error (.endOfBuffer e), d)
    | some s => (.ok s, { d with index := e })

/-- Whether a byte is a UTF-8 continuation byte (0x80..0xBF). -/
def is_cont (b : Nat) : Bool := 0x80 ≤ b && b ≤ 0xBF

/-- str::from_utf8 validity: the standard UTF-8 well-formedness check,
including the surrogate and overlong exclusions encoded in the lead-byte
ranges. -/
def utf8_validate : List Nat → Bool
  | [] => true
  | b :: rest =>
    if b ≤ 0x7F then utf8_validate rest
    else if 0xC2 ≤ b && b ≤ 0xDF then
      match rest with
      | c1 :: r => is_cont c1 && utf8_validate r
      | [] => false
    else if b = 0xE0 then
      match rest with
      | c1 :: c2 :: r => (0xA0 ≤ c1 && c1 ≤ 0xBF) && is_cont c2 && utf8_validate r
      | _ => false
    else if (0xE1 ≤ b && b ≤ 0xEC) || b = 0xEE || b = 0xEF then
      match rest with
      | c1 :: c2 :: r => is_cont c1 && is_cont c2 && utf8_validate r
      | _ => false
    else if b = 0xED then
      match rest with
      | c1 :: c2 :: r => (0x80 ≤ c1 && c1 ≤ 0x9F) && is_cont c2 && utf8_validate r
      | _ => false
    else if b = 0xF0 then
      match rest with
      | c1 :: c2 :: c3 :: r => (0x90 ≤ c1 && c1 ≤ 0xBF) && is_cont c2 && is_cont c3 && utf8_validate r
      | _ => false
    else if 0xF1 ≤ b && b ≤ 0xF3 then
      match rest with
      | c1 :: c2 :: c3 :: r => is_cont c1 && is_cont c2 && is_cont c3 && utf8_validate r
      | _ => false
    else if b = 0xF4 then
      match rest with
      | c1 :: c2 :: c3 :: r => (0x80 ≤ c1 && c1 ≤ 0x8F) && is_cont c2 && is_cont c3 && utf8_validate r
      | _ => false
    else false

/-- Decoder::read_string: read_slice then UTF-8 validation; the resulting
String is modelled by its byte sequence, unchanged from the slice. -/
def Decoder.read_string (d : Decoder) (len : Nat) : Except DecodeError (List Nat) × Decoder :=
  match d.read_slice len with
  | (.ok s, d2) => if utf8_validate s then (.ok s, d2) else (.error conversionError, d2)
  | (.error e, d2) => (.error e, d2)

/-- Iterator::position: index of the first element satisfying the
predicate. -/
def position (p : Nat → Bool) : List Nat → Option Nat
  | [] => none
  | b :: rest => if p b then some 0 else (position p rest).map (· + 1)

/-- CStr::from_bytes_with_nul: succeeds exactly when the byte sequence ends
with a nul byte and contains no interior nul, that is when its first nul is
its last byte. -/
def from_bytes_with_nul (bytes : List Nat) : Option (List Nat) :=
  if bytes.getLast? = some 0 ∧ position (fun b => decide (b = 0)) bytes = some (bytes.length - 1)
  then some bytes else none

/-- Decoder::read_cstring::<MAX>: read MAX bytes, scan for the first nul;
nul first or absent gives no value, otherwise the prefix through the nul as a
C string. -/
def Decoder.read_cstring (d : Decoder) (MAX : Nat) :
    Except DecodeError (Option (List Nat)) × Decoder :=
  match d.read MAX with
  | (.error e, d2) => (.error e, d2)
  | (.ok bytes, d2) =>
    match position (fun b => decide (b = 0)) bytes with
    | none => (.ok none, d2)
    | some n =>
      if n = 0 then (.ok none, d2)
      else
        match from_bytes_with_nul (bytes.take (n + 1)) with
        | some cs => (.ok (some cs), d2)
        | none => (.error conversionError, d2)

/-- Decoder::read_const_string::<MAX>: read MAX bytes, scan for the first
nul; nul first or absent gives no value, otherwise the prefix through the nul
validated as UTF-8. -/
def Decoder.read_const_string (d : Decoder) (MAX : Nat) :
    Except DecodeError (Option (List Nat)) × Decoder :=
  match d.read MAX with
  | (.error e, d2) => (.error e, d2)
  | (.ok bytes, d2) =>
    match position (fun b => decide (b = 0)) bytes with
    | none => (.ok none, d2)
    | some n =>
      if n = 0 then (.ok none, d2)
      else
        if utf8_validate (bytes.take (n + 1)) then (.ok (some (bytes.take (n + 1))), d2)
        else (.error conversionError, d2)

/-- IPv4 address as its four octets. -/
structure Ipv4Addr where
  o0 : Nat
  o1 : Nat
  o2 : Nat
  o3 : Nat
deriving DecidableEq, Repr

/-- IPv6 address as its sixteen octets. -/
structure Ipv6Addr where
  octets : List Nat
deriving DecidableEq, Repr

/-- slice::chunks: the ceiling of length over n consecutive groups of n
elements each, the i-th group holding the elements from n*i inclusive to
n*i+n exclusive and the last group possibly shorter; n is positive at every
call site of the source. -/
def chunks (n : Nat) (l : List Nat) : List (List Nat) :=
  (List.range ((l.length + n - 1) / n)).map (fun i => (l.drop (n * i)).take n)

/-- Conversion of one chunk by the indexing bytes[0]..bytes[3]; none models
the out-of-bounds panic. -/
def ipv4_of_chunk (bytes : List Nat) : Option Ipv4Addr :=
  match bytes[0]?, bytes[1]?, bytes[2]?, bytes[3]? with
  | some a, some b, some c, some d => some ⟨a, b, c, d⟩
  | _, _, _, _ => none

/-- Conversion of one chunk by the indexing bytes[0]..bytes[7] into a pair of
addresses; none models the out-of-bounds panic. -/
def pair_ipv4_of_chunk (bytes : List Nat) : Option (Ipv4Addr × Ipv4Addr) :=
  match bytes[0]?, bytes[1]?, bytes[2]?, bytes[3]?, bytes[4]?, bytes[5]?, bytes[6]?, bytes[7]? with
  | some a, some b, some c, some d, some e, some f, some g, some k =>
    some (⟨a, b, c, d⟩, ⟨e, f, g, k⟩)
  | _, _, _, _, _, _, _, _ => none

/-- TryInto into a sixteen-byte array applied to one chunk, as in
read_ipv6s. -/
def ipv6_of_chunk (bytes : List Nat) : Option Ipv6Addr :=
  if bytes.length = 16 then some ⟨bytes⟩ else none

/-- Collecting an iterator of fallible elements, stopping at the first
failure. -/
def collectOption {α : Type} : List (Option α) → Option (List α)
  | [] => some []
  | none :: _ => none
  | some a :: rest => (collectOption rest).map (a :: ·)

/-- Decoder::read_ipv4: requires length to be exactly 4, then reads four
bytes; the array-to-address conversion is infallible on a four-byte array. -/
def Decoder.read_ipv4 (d : Decoder) (length : Nat) : Except DecodeError Ipv4Addr × Decoder :=
  if length ≠ 4 then (.error .notEnoughBytes, d)
  else match d.read 4 with
    | (.error e, d2) => (.error e, d2)
    | (.ok bytes, d2) => (.ok ⟨bytes.getD 0 0, bytes.getD 1 0, bytes.getD 2 0, bytes.getD 3 0⟩, d2)

/-- Decoder::read_ipv4s: length must be a multiple of 4; reads length bytes
and maps each 4-byte chunk to an address.  The outer Option models the
indexing panic inside the map. -/
def Decoder.read_ipv4s (d : Decoder) (length : Nat) :
    Option (Except DecodeError (List Ipv4Addr) × Decoder) :=
  if length % 4 ≠ 0 then some (.error .notEnoughBytes, d)
  else match d.read_slice length with
    | (.error e, d2) => some (.error e, d2)
    | (.ok ips, d2) =>
      match collectOption ((chunks 4 ips).map ipv4_of_chunk) with
      | none => none
      | some l => some (.ok l, d2)

/-- Decoder::read_ipv6s: length must be a multiple of 16; reads length bytes
and converts each 16-byte chunk through the fallible TryInto, whose failure
the question-mark operator converts to a decode error. -/
def Decoder.read_ipv6s (d : Decoder) (length : Nat) :
    Except DecodeError (List Ipv6Addr) × Decoder :=
  if length % 16 ≠ 0 then (.error .notEnoughBytes, d)
  else match d.read_slice length with
    | (.error e, d2) => (.error e, d2)
    | (.ok ips, d2) =>
      match collectOption ((chunks 16 ips).map ipv6_of_chunk) with
      | none => (.error conversionError, d2)
      | some l => (.ok l, d2)

/-- Decoder::read_pair_ipv4s: length must be a multiple of 8; reads length
bytes and maps each 8-byte chunk to an ordered pair of addresses.  The outer
Option models the indexing panic inside the map. -/
def Decoder.read_pair_ipv4s (d : Decoder) (length : Nat) :
    Option (Except DecodeError (List (Ipv4Addr × Ipv4Addr)) × Decoder) :=
  if length % 8 ≠ 0 then some (.error .notEnoughBytes, d)
  else match d.read_slice length with
    | (.error e, d2) => some (.error e, d2)
    | (.ok ips, d2) =>
      match collectOption ((chunks 8 ips).map pair_ipv4_of_chunk) with
      | none => none
      | some l => some (.ok l, d2)

/-- Introspection of the unread bytes: the source method named buffer,
returning the slice of the buffer from the current index to the end; none
models the slicing panic when the index exceeds the length. -/
def Decoder.remaining (d : Decoder) : Option (List Nat) :=
  if d.index ≤ d.buffer.length then some (d.buffer.drop d.index) else none

/-- Big-endian encoding of v into w bytes, as in uN::to_be_bytes. -/
def u_to_be_bytes : Nat → Nat → List Nat
  | 0, _ => []
  | w + 1, v => u_to_be_bytes w (v / 256) ++ [v % 256]

/-- Big-endian two's-complement encoding of a signed 32-bit value. -/
def i32_to_be_bytes (i : Int) : List Nat :=
  u_to_be_bytes 4 (i % (2 ^ 32)).toNat

/-!  Characterization of the primitive reads. -/

theorem checked_add_some (a b e : Nat) (h : checked_add a b = some e) :
    e = a + b ∧ a + b ≤ USIZE_MAX := by
  unfold checked_add at h
  split at h
  · exact ⟨(Option.some.inj h).symm, by assumption⟩
  · exact absurd h (by simp)

theorem Decoder.read_of_overflow (d : Decoder) (N : Nat) (h : USIZE_MAX < d.index + N) :
    d.read N = (.error .addOverflow, d) := by
  simp [Decoder.read, checked_add, Nat.not_le.mpr h]

theorem Decoder.read_of_eob (d : Decoder) (N : Nat) (h1 : d.index + N ≤ USIZE_MAX)
    (h2 : d.buffer.length < d.index + N) :
    d.read N = (.error (.endOfBuffer (d.index + N)), d) := by
  simp [Decoder.read, checked_add, h1, sliceGet, Nat.not_le.mpr h2]

theorem Decoder.read_of_ok (d : Decoder) (N : Nat) (h1 : d.index + N ≤ USIZE_MAX)
    (h2 : d.index + N ≤ d.buffer.length) :
    d.read N = (.ok ((d.buffer.drop d.index).take N), ⟨d.buffer, d.index + N⟩) := by
  have hlen : ((d.buffer.drop d.index).take N).length = N := by
    simp only [List.length_take, List.length_drop]
    omega
  simp [Decoder.read, checked_add, sliceGet, h1, h2, Nat.le_add_right,
    Nat.add_sub_cancel_left, hlen]

theorem Decoder.read_slice_of_overflow (d : Decoder) (len : Nat)
    (h : USIZE_MAX < d.index + len) :
    d.read_slice len = (.error .addOverflow, d) := by
  simp [Decoder.read_slice, checked_add, Nat.not_le.mpr h]

theorem Decoder.read_slice_of_eob (d : Decoder) (len : Nat) (h1 : d.index + len ≤ USIZE_MAX)
    (h2 : d.buffer.length < d.index + len) :
    d.read_slice len = (.error (.endOfBuffer (d.index + len)), d) := by
  simp [Decoder.read_slice, checked_add, h1, sliceGet, Nat.not_le.mpr h2]

theorem Decoder.read_slice_of_ok (d : Decoder) (len : Nat) (h1 : d.index + len ≤ USIZE_MAX)
    (h2 : d.index + len ≤ d.buffer.length) :
    d.read_slice len = (.ok ((d.buffer.drop d.index).take len), ⟨d.buffer, d.index + len⟩) := by
  simp [Decoder.read_slice, checked_add, sliceGet, h1, h2, Nat.le_add_right,
    Nat.add_sub_cancel_left]

theorem Decoder.read_total (d : Decoder) (N : Nat) :
    (d.read N = (.error .addOverflow, d) ∨
      d.read N = (.error (.endOfBuffer (d.index + N)), d)) ∨
    (d.index + N ≤ USIZE_MAX ∧ d.index + N ≤ d.buffer.length ∧
      d.read N = (.ok ((d.buffer.drop d.index).take N), ⟨d.buffer, d.index + N⟩)) := by
  rcases Nat.lt_or_ge USIZE_MAX (d.index + N) with h1 | h1
  · exact Or.inl (Or.inl (d.read_of_overflow N h1))
  · rcases Nat.lt_or_ge d.buffer.length (d.index + N) with h2 | h2
    · exact Or.inl (Or.inr (d.read_of_eob N h1 h2))
    · exact Or.inr ⟨h1, h2, d.read_of_ok N h1 h2⟩

theorem Decoder.read_slice_total (d : Decoder) (len : Nat) :
    (d.read_slice len = (.error .addOverflow, d) ∨
      d.read_slice len = (.error (.endOfBuffer (d.index + len)), d)) ∨
    (d.index + len ≤ USIZE_MAX ∧ d.index + len ≤ d.buffer.length ∧
      d.read_slice len = (.ok ((d.buffer.drop d.index).take len), ⟨d.buffer, d.index + len⟩)) := by
  rcases Nat.lt_or_ge USIZE_MAX (d.index + len) with h1 | h1
  · exact Or.inl (Or.inl (d.read_slice_of_overflow len h1))
  · rcases Nat.lt_or_ge d.buffer.length (d.index + len) with h2 | h2
    · exact Or.inl (Or.inr (d.read_slice_of_eob len h1 h2))
    · exact Or.inr ⟨h1, h2, d.read_slice_of_ok len h1 h2⟩

theorem Decoder.read_ok_inv (d : Decoder) (N : Nat) (bytes : List Nat) (d2 : Decoder)
    (h : d.read N = (.ok bytes, d2)) :
    bytes = (d.buffer.drop d.index).take N ∧ bytes.length = N ∧
    d2 = ⟨d.buffer, d.index + N⟩ ∧ d.index + N ≤ d.buffer.length := by
  rcases d.read_total N with (he | he) | ⟨h1, h2, he⟩ <;> rw [he] at h
  · exact absurd (congrArg Prod.fst h) (by simp)
  · exact absurd (congrArg Prod.fst h) (by simp)
  · have hb := congrArg Prod.fst h
    have hd := congrArg Prod.snd h
    simp only at hb hd
    refine ⟨(Except.ok.inj hb).symm, ?_, hd.symm, h2⟩
    rw [← Except.ok.inj hb]
    simp only [List.length_take, List.length_drop]
    omega

/-- C1: the fixed-width read computes end = index + N; it fails with the
Overflow error when the addition leaves the usize range, fails with the
End-Of-Buffer error carrying the attempted end offset when end exceeds the
buffer length, and otherwise returns exactly the N bytes buffer[index..end]
by value and sets the index to end. -/
theorem C1_read_spec (d : Decoder) (N : Nat) :
    (USIZE_MAX < d.index + N → d.read N = (.error .addOverflow, d)) ∧
    (d.index + N ≤ USIZE_MAX → d.buffer.length < d.index + N →
      d.read N = (.error (.endOfBuffer (d.index + N)), d)) ∧
    (d.index + N ≤ USIZE_MAX → d.index + N ≤ d.buffer.length →
      d.read N = (.ok ((d.buffer.drop d.index).take N), ⟨d.buffer, d.index + N⟩)) :=
  ⟨d.read_of_overflow N, d.read_of_eob N, d.read_of_ok N⟩

/-- Witness for C1: the three cases at concrete cursors over the buffer
[5, 6, 7]. -/
theorem C1_read_spec_witness :
    Decoder.read ⟨[5, 6, 7], 1⟩ 2 = (.ok [6, 7], ⟨[5, 6, 7], 3⟩) ∧
    Decoder.read ⟨[5, 6, 7], 2⟩ 2 = (.error (.endOfBuffer 4), ⟨[5, 6, 7], 2⟩) ∧
    Decoder.read ⟨[5, 6, 7], 2⟩ USIZE_MAX = (.error .addOverflow, ⟨[5, 6, 7], 2⟩) :=
  ⟨(C1_read_spec ⟨[5, 6, 7], 1⟩ 2).2.2 (by decide) (by decide),
   (C1_read_spec ⟨[5, 6, 7], 2⟩ 2).2.1 (by decide) (by decide),
   (C1_read_spec ⟨[5, 6, 7], 2⟩ USIZE_MAX).1 (by decide)⟩

/-- C2 counterexample: a cursor at index 1 over the one-byte buffer [0] and
the read size USIZE_MAX.  Then index + N exceeds the buffer length, yet both
read and read_slice fail with the Overflow error, not with the End-Of-Buffer
error carrying the attempted end offset, because the checked addition is
performed first and overflows. -/
theorem C2_counterexample :
    ([0] : List Nat).length < 1 + USIZE_MAX ∧
    Decoder.read ⟨[0], 1⟩ USIZE_MAX = (.error .addOverflow, ⟨[0], 1⟩) ∧
    (Decoder.read ⟨[0], 1⟩ USIZE_MAX).1 ≠ .error (.endOfBuffer (1 + USIZE_MAX)) ∧
    Decoder.read_slice ⟨[0], 1⟩ USIZE_MAX = (.error .addOverflow, ⟨[0], 1⟩) ∧
    (Decoder.read_slice ⟨[0], 1⟩ USIZE_MAX).1 ≠ .error (.endOfBuffer (1 + USIZE_MAX)) := by
  refine ⟨by decide, by decide, ?_, by decide, ?_⟩ <;> decide

/-- C2 amended: for every cursor state and read size N with
index + N > buffer length, the read (fixed-width or runtime-length) fails
with End-Of-Buffer provided index + N stays within the usize range, and with
Overflow when the addition overflows; on every failure path of either read
the cursor is left unchanged, so its position after a failed call equals its
position before the call. -/
theorem C2_read_eob_no_consumption (d : Decoder) (N : Nat) :
    (d.index + N ≤ USIZE_MAX → d.buffer.length < d.index + N →
      d.read N = (.error (.endOfBuffer (d.index + N)), d) ∧
      d.read_slice N = (.error (.endOfBuffer (d.index + N)), d)) ∧
    (USIZE_MAX < d.index + N →
      d.read N = (.error .addOverflow, d) ∧
      d.read_slice N = (.error .addOverflow, d)) ∧
    (∀ e, (d.read N).1 = .error e → (d.read N).2 = d) ∧
    (∀ e, (d.read_slice N).1 = .error e → (d.read_slice N).2 = d) := by
  refine ⟨fun h1 h2 => ⟨d.read_of_eob N h1 h2, d.read_slice_of_eob N h1 h2⟩,
    fun h => ⟨d.read_of_overflow N h, d.read_slice_of_overflow N h⟩, ?_, ?_⟩
  · intro e he
    rcases d.read_total N with (ht | ht) | ⟨_, _, ht⟩ <;> rw [ht]
    rw [ht] at he
    exact absurd he (by simp)
  · intro e he
    rcases d.read_slice_total N with (ht | ht) | ⟨_, _, ht⟩ <;> rw [ht]
    rw [ht] at he
    exact absurd he (by simp)

/-- Witness for C2 amended: End-Of-Buffer failure of both reads at a concrete
cursor, leaving the cursor unchanged. -/
theorem C2_read_eob_no_consumption_witness :
    Decoder.read ⟨[9, 9], 1⟩ 4 = (.error (.endOfBuffer 5), ⟨[9, 9], 1⟩) ∧
    Decoder.read_slice ⟨[9, 9], 1⟩ 4 = (.error (.endOfBuffer 5), ⟨[9, 9], 1⟩) :=
  (C2_read_eob_no_consumption ⟨[9, 9], 1⟩ 4).1 (by decide) (by decide)

/-!  One-step properties of each operation, for the cursor invariant. -/

/-- One cursor operation step from d to d2: the buffer is unchanged, the
index never decreases, an index within the buffer stays within the buffer,
and a successful call advances the index by exactly the number of bytes the
operation consumes. -/
def OpStep (d d2 : Decoder) (consumed : Nat) (ok : Bool) : Prop :=
  d2.buffer = d.buffer ∧ d.index ≤ d2.index ∧
  (d.index ≤ d.buffer.length → d2.index ≤ d2.buffer.length) ∧
  (ok = true → d2.index = d.index + consumed)

theorem OpStep_refl (d : Decoder) (c : Nat) : OpStep d d c false :=
  ⟨rfl, Nat.le_refl _, id, by simp⟩

theorem OpStep_of_true (d d2 : Decoder) (c : Nat) (h : OpStep d d2 c true) (b : Bool) :
    OpStep d d2 c b :=
  ⟨h.1, h.2.1, h.2.2.1, fun _ => h.2.2.2 rfl⟩

theorem Decoder.read_OpStep (d : Decoder) (N : Nat) :
    OpStep d (d.read N).2 N (d.read N).1.isOk := by
  rcases d.read_total N with (h | h) | ⟨_, h2, h⟩ <;> rw [h]
  · exact OpStep_refl d N
  · exact OpStep_refl d N
  · exact ⟨rfl, Nat.le_add_right _ _, fun _ => h2, fun _ => rfl⟩

theorem Decoder.read_slice_OpStep (d : Decoder) (len : Nat) :
    OpStep d (d.read_slice len).2 len (d.read_slice len).1.isOk := by
  rcases d.read_slice_total len with (h | h) | ⟨_, h2, h⟩ <;> rw [h]
  · exact OpStep_refl d len
  · exact OpStep_refl d len
  · exact ⟨rfl, Nat.le_add_right _ _, fun _ => h2, fun _ => rfl⟩

theorem Decoder.read_u8_OpStep (d : Decoder) :
    OpStep d (d.read_u8).2 1 (d.read_u8).1.isOk := by
  have h := d.read_OpStep 1
  unfold Decoder.read_u8
  rcases hr : d.read 1 with ⟨r | r, d2⟩ <;> rw [hr] at h <;> exact h

theorem Decoder.read_u16_OpStep (d : Decoder) :
    OpStep d (d.read_u16).2 2 (d.read_u16).1.isOk := by
  have h := d.read_OpStep 2
  unfold Decoder.read_u16
  rcases hr : d.read 2 with ⟨r | r, d2⟩ <;> rw [hr] at h <;> exact h

theorem Decoder.read_u32_OpStep (d : Decoder) :
    OpStep d (d.read_u32).2 4 (d.read_u32).1.isOk := by
  have h := d.read_OpStep 4
  unfold Decoder.read_u32
  rcases hr : d.read 4 with ⟨r | r, d2⟩ <;> rw [hr] at h <;> exact h

theorem Decoder.read_u64_OpStep (d : Decoder) :
    OpStep d (d.read_u64).2 8 (d.read_u64).1.isOk := by
  have h := d.read_OpStep 8
  unfold Decoder.read_u64
  rcases hr : d.read 8 with ⟨r | r, d2⟩ <;> rw [hr] at h <;> exact h

theorem Decoder.read_i32_OpStep (d : Decoder) :
    OpStep d (d.read_i32).2 4 (d.read_i32).1.isOk := by
  have h := d.read_OpStep 4
  unfold Decoder.read_i32
  rcases hr : d.read 4 with ⟨r | r, d2⟩ <;> rw [hr] at h <;> exact h

theorem Decoder.read_bool_OpStep (d : Decoder) :
    OpStep d (d.read_bool).2 1 (d.read_bool).1.isOk := by
  have h := d.read_u8_OpStep
  unfold Decoder.read_bool
  rcases hr : d.read_u8 with ⟨r | r, d2⟩ <;> rw [hr] at h <;> exact h

theorem Decoder.read_string_OpStep (d : Decoder) (len : Nat) :
    OpStep d (d.read_string len).2 len (d.read_string len).1.isOk := by
  have h := d.read_slice_OpStep len
  rcases hr : d.read_slice len with ⟨r | r, d2⟩ <;> rw [hr] at h <;>
    simp only [Decoder.read_string, hr]
  · exact h
  · split
    · exact h
    · exact OpStep_of_true d d2 len h false

theorem Decoder.read_cstring_OpStep (d : Decoder) (MAX : Nat) :
    OpStep d (d.read_cstring MAX).2 MAX (d.read_cstring MAX).1.isOk := by
  have h := d.read_OpStep MAX
  rcases hr : d.read MAX with ⟨r | r, d2⟩ <;> rw [hr] at h <;>
    simp only [Decoder.read_cstring, hr]
  · exact h
  · split
    · exact OpStep_of_true d d2 MAX h true
    · split
      · exact OpStep_of_true d d2 MAX h true
      · split
        · exact OpStep_of_true d d2 MAX h true
        · exact OpStep_of_true d d2 MAX h false

theorem Decoder.read_const_string_OpStep (d : Decoder) (MAX : Nat) :
    OpStep d (d.read_const_string MAX).2 MAX (d.read_const_string MAX).1.isOk := by
  have h := d.read_OpStep MAX
  rcases hr : d.read MAX with ⟨r | r, d2⟩ <;> rw [hr] at h <;>
    simp only [Decoder.read_const_string, hr]
  · exact h
  · split
    · exact OpStep_of_true d d2 MAX h true
    · split
      · exact OpStep_of_true d d2 MAX h true
      · split
        · exact OpStep_of_true d d2 MAX h true
        · exact OpStep_of_true d d2 MAX h false

theorem Decoder.read_ipv4_OpStep (d : Decoder) (length : Nat) :
    OpStep d (d.read_ipv4 length).2 4 (d.read_ipv4 length).1.isOk := by
  have h := d.read_OpStep 4
  by_cases hl : length ≠ 4
  · simp only [Decoder.read_ipv4, if_pos hl]
    exact OpStep_refl d 4
  · rcases hr : d.read 4 with ⟨r | r, d2⟩ <;> rw [hr] at h <;>
      simp only [Decoder.read_ipv4, if_neg hl, hr]
    · exact h
    · exact h

theorem Decoder.read_ipv6s_OpStep (d : Decoder) (length : Nat) :
    OpStep d (d.read_ipv6s length).2 length (d.read_ipv6s length).1.isOk := by
  have h := d.read_slice_OpStep length
  by_cases hl : length % 16 ≠ 0
  · simp only [Decoder.read_ipv6s, if_pos hl]
    exact OpStep_refl d length
  · rcases hr : d.read_slice length with ⟨r | r, d2⟩ <;> rw [hr] at h <;>
      simp only [Decoder.read_ipv6s, if_neg hl, hr]
    · exact h
    · split
      · exact OpStep_of_true d d2 length h false
      · exact OpStep_of_true d d2 length h true

theorem Decoder.read_ipv4s_OpStep (d : Decoder) (length : Nat)
    (r : Except DecodeError (List Ipv4Addr)) (d2 : Decoder)
    (h : d.read_ipv4s length = some (r, d2)) : OpStep d d2 length r.isOk := by
  have hs := d.read_slice_OpStep length
  unfold Decoder.read_ipv4s at h
  split at h
  · simp only [Option.some.injEq, Prod.mk.injEq] at h
    obtain ⟨h1, h2⟩ := h
    subst h1
    subst h2
    exact OpStep_refl d length
  · rcases hr : d.read_slice length with ⟨rs | rs, ds⟩ <;>
      rw [hr] at hs <;> simp only [hr] at h
    · simp only [Option.some.injEq, Prod.mk.injEq] at h
      obtain ⟨h1, h2⟩ := h
      subst h1
      subst h2
      exact hs
    · rcases hc : collectOption ((chunks 4 rs).map ipv4_of_chunk) with _ | l
      · simp only [hc] at h
        exact absurd h (by simp)
      · simp only [hc, Option.some.injEq, Prod.mk.injEq] at h
        obtain ⟨h1, h2⟩ := h
        subst h1
        subst h2
        exact hs

theorem Decoder.read_pair_ipv4s_OpStep (d : Decoder) (length : Nat)
    (r : Except DecodeError (List (Ipv4Addr × Ipv4Addr))) (d2 : Decoder)
    (h : d.read_pair_ipv4s length = some (r, d2)) : OpStep d d2 length r.isOk := by
  have hs := d.read_slice_OpStep length
  unfold Decoder.read_pair_ipv4s at h
  split at h
  · simp only [Option.some.injEq, Prod.mk.injEq] at h
    obtain ⟨h1, h2⟩ := h
    subst h1
    subst h2
    exact OpStep_refl d length
  · rcases hr : d.read_slice length with ⟨rs | rs, ds⟩ <;>
      rw [hr] at hs <;> simp only [hr] at h
    · simp only [Option.some.injEq, Prod.mk.injEq] at h
      obtain ⟨h1, h2⟩ := h
      subst h1
      subst h2
      exact hs
    · rcases hc : collectOption ((chunks 8 rs).map pair_ipv4_of_chunk) with _ | l
      · simp only [hc] at h
        exact absurd h (by simp)
      · simp only [hc, Option.some.injEq, Prod.mk.injEq] at h
        obtain ⟨h1, h2⟩ := h
        subst h1
        subst h2
        exact hs

/-- C3: the cursor invariant 0 ≤ index ≤ buffer length is preserved by every
operation: a fresh cursor starts at index 0, no call (successful or failed)
ever decreases the index or changes the buffer, every successful read leaves
the index exactly past the bytes it consumed, and no operation moves an
in-bounds index strictly past the buffer length (OpStep packages these
one-step facts). -/
theorem C3_invariant_all_ops (buf : List Nat) (d : Decoder) (N len MAX : Nat) :
    (Decoder.new buf).index = 0 ∧
    OpStep d (d.read N).2 N (d.read N).1.isOk ∧
    OpStep d (d.read_slice len).2 len (d.read_slice len).1.isOk ∧
    OpStep d (d.read_u8).2 1 (d.read_u8).1.isOk ∧
    OpStep d (d.read_u16).2 2 (d.read_u16).1.isOk ∧
    OpStep d (d.read_u32).2 4 (d.read_u32).1.isOk ∧
    OpStep d (d.read_u64).2 8 (d.read_u64).1.isOk ∧
    OpStep d (d.read_i32).2 4 (d.read_i32).1.isOk ∧
    OpStep d (d.read_bool).2 1 (d.read_bool).1.isOk ∧
    OpStep d (d.read_string len).2 len (d.read_string len).1.isOk ∧
    OpStep d (d.read_cstring MAX).2 MAX (d.read_cstring MAX).1.isOk ∧
    OpStep d (d.read_const_string MAX).2 MAX (d.read_const_string MAX).1.isOk ∧
    OpStep d (d.read_ipv4 len).2 4 (d.read_ipv4 len).1.isOk ∧
    OpStep d (d.read_ipv6s len).2 len (d.read_ipv6s len).1.isOk ∧
    (∀ r d2, d.read_ipv4s len = some (r, d2) → OpStep d d2 len r.isOk) ∧
    (∀ r d2, d.read_pair_ipv4s len = some (r, d2) → OpStep d d2 len r.isOk) :=
  ⟨rfl, d.read_OpStep N, d.read_slice_OpStep len, d.read_u8_OpStep, d.read_u16_OpStep,
   d.read_u32_OpStep, d.read_u64_OpStep, d.read_i32_OpStep, d.read_bool_OpStep,
   d.read_string_OpStep len, d.read_cstring_OpStep MAX, d.read_const_string_OpStep MAX,
   d.read_ipv4_OpStep len, d.read_ipv6s_OpStep len,
   fun r d2 => d.read_ipv4s_OpStep len r d2, fun r d2 => d.read_pair_ipv4s_OpStep len r d2⟩

/-- Witness for C3: the address-list read over an eight-byte buffer steps the
fresh cursor to index 8 while keeping the invariant. -/
theorem C3_invariant_all_ops_witness :
    OpStep (Decoder.new [1, 2, 3, 4, 5, 6, 7, 8]) ⟨[1, 2, 3, 4, 5, 6, 7, 8], 8⟩ 8
      (Except.ok [Ipv4Addr.mk 1 2 3 4, Ipv4Addr.mk 5 6 7 8] :
        Except DecodeError (List Ipv4Addr)).isOk :=
  (C3_invariant_all_ops [] (Decoder.new [1, 2, 3, 4, 5, 6, 7, 8])
      1 8 1).2.2.2.2.2.2.2.2.2.2.2.2.2.2.1
    (Except.ok [Ipv4Addr.mk 1 2 3 4, Ipv4Addr.mk 5 6 7 8])
    ⟨[1, 2, 3, 4, 5, 6, 7, 8], 8⟩ (by decide)

/-!  Big-endian round trip. -/

theorem u_to_be_bytes_length (w v : Nat) : (u_to_be_bytes w v).length = w := by
  induction w generalizing v with
  | zero => rfl
  | succ w ih => simp [u_to_be_bytes, ih]

theorem from_be_bytes_append_one (l : List Nat) (x : Nat) :
    from_be_bytes (l ++ [x]) = from_be_bytes l * 256 + x := by
  simp [from_be_bytes, List.foldl_append]

theorem from_be_u_to_be (w v : Nat) (h : v < 256 ^ w) :
    from_be_bytes (u_to_be_bytes w v) = v := by
  induction w generalizing v with
  | zero =>
    have hv : v = 0 := by simpa using h
    simp [hv, u_to_be_bytes, from_be_bytes]
  | succ w ih =>
    rw [show u_to_be_bytes (w + 1) v = u_to_be_bytes w (v / 256) ++ [v % 256] from rfl]
    rw [from_be_bytes_append_one]
    rw [ih (v / 256) (by rw [pow_succ] at h; omega)]
    omega

theorem Decoder.read_all (buf : List Nat) (w : Nat) (h1 : buf.length = w)
    (h2 : w ≤ USIZE_MAX) : (Decoder.new buf).read w = (.ok buf, ⟨buf, w⟩) := by
  subst h1
  have h := Decoder.read_of_ok (Decoder.new buf) buf.length
    (by simpa [Decoder.new] using h2) (by simp [Decoder.new])
  simpa [Decoder.new] using h

/-- C4: decoding the big-endian byte encoding of a value with the matching
typed read from a fresh cursor returns the value, for u8, u16, u32, u64 and
the two's-complement i32, over the whole range of each type (boundary values
included). -/
theorem C4_be_roundtrip (v : Nat) (i : Int) :
    (v < 2 ^ 8 → ((Decoder.new (u_to_be_bytes 1 v)).read_u8).1 = .ok v) ∧
    (v < 2 ^ 16 → ((Decoder.new (u_to_be_bytes 2 v)).read_u16).1 = .ok v) ∧
    (v < 2 ^ 32 → ((Decoder.new (u_to_be_bytes 4 v)).read_u32).1 = .ok v) ∧
    (v < 2 ^ 64 → ((Decoder.new (u_to_be_bytes 8 v)).read_u64).1 = .ok v) ∧
    (-(2 ^ 31) ≤ i → i < 2 ^ 31 → ((Decoder.new (i32_to_be_bytes i)).read_i32).1 = .ok i) := by
  refine ⟨fun hv => ?_, fun hv => ?_, fun hv => ?_, fun hv => ?_, fun hlo hhi => ?_⟩
  · simp only [Decoder.read_u8,
      Decoder.read_all (u_to_be_bytes 1 v) 1 (u_to_be_bytes_length 1 v) (by decide)]
    rw [from_be_u_to_be 1 v (by norm_num at hv ⊢; omega)]
  · simp only [Decoder.read_u16,
      Decoder.read_all (u_to_be_bytes 2 v) 2 (u_to_be_bytes_length 2 v) (by decide)]
    rw [from_be_u_to_be 2 v (by norm_num at hv ⊢; omega)]
  · simp only [Decoder.read_u32,
      Decoder.read_all (u_to_be_bytes 4 v) 4 (u_to_be_bytes_length 4 v) (by decide)]
    rw [from_be_u_to_be 4 v (by norm_num at hv ⊢; omega)]
  · simp only [Decoder.read_u64,
      Decoder.read_all (u_to_be_bytes 8 v) 8 (u_to_be_bytes_length 8 v) (by decide)]
    rw [from_be_u_to_be 8 v (by norm_num at hv ⊢; omega)]
  · simp only [Decoder.read_i32, i32_to_be_bytes,
      Decoder.read_all (u_to_be_bytes 4 (i % (2 ^ 32)).toNat) 4
        (u_to_be_bytes_length 4 (i % (2 ^ 32)).toNat) (by decide)]
    have hm : (i % (2 ^ 32)).toNat < 256 ^ 4 := by norm_num; omega
    simp only [i32_from_be_bytes, from_be_u_to_be 4 (i % (2 ^ 32)).toNat hm]
    split_ifs with hc
    · norm_num at hc ⊢
      omega
    · norm_num at hc ⊢
      omega

/-- Witness for C4 at the boundary values of each type. -/
theorem C4_be_roundtrip_witness :
    ((Decoder.new (u_to_be_bytes 1 255)).read_u8).1 = .ok 255 ∧
    ((Decoder.new (u_to_be_bytes 2 65535)).read_u16).1 = .ok 65535 ∧
    ((Decoder.new (u_to_be_bytes 4 4294967295)).read_u32).1 = .ok 4294967295 ∧
    ((Decoder.new (u_to_be_bytes 8 18446744073709551615)).read_u64).1 =
      .ok 18446744073709551615 ∧
    ((Decoder.new (i32_to_be_bytes (-2147483648))).read_i32).1 = .ok (-2147483648) ∧
    ((Decoder.new (i32_to_be_bytes 0)).read_i32).1 = .ok 0 :=
  ⟨(C4_be_roundtrip 255 0).1 (by decide), (C4_be_roundtrip 65535 0).2.1 (by decide),
   (C4_be_roundtrip 4294967295 0).2.2.1 (by decide),
   (C4_be_roundtrip 18446744073709551615 0).2.2.2.1 (by decide),
   (C4_be_roundtrip 0 (-2147483648)).2.2.2.2 (by decide) (by decide),
   (C4_be_roundtrip 0 0).2.2.2.2 (by decide) (by decide)⟩

/-!  Chunk and collection lemmas for the address-list reads. -/

theorem ceilDiv_eq_div (n L : Nat) (hn : 0 < n) (hd : L % n = 0) :
    (L + n - 1) / n = L / n := by
  obtain ⟨c, hc⟩ := Nat.dvd_of_mod_eq_zero hd
  rw [hc]
  rcases Nat.eq_zero_or_pos c with rfl | hc0
  · simp only [Nat.mul_zero, Nat.zero_add, Nat.zero_div]
    exact Nat.div_eq_of_lt (by omega)
  · have he : n * c + n - 1 = n * c + (n - 1) := by omega
    rw [he, Nat.mul_add_div hn, Nat.div_eq_of_lt (by omega), Nat.add_zero,
      Nat.mul_div_cancel_left c hn]

theorem chunks_length (n : Nat) (l : List Nat) (hn : 0 < n) (hd : l.length % n = 0) :
    (chunks n l).length = l.length / n := by
  simp only [chunks, List.length_map, List.length_range]
  exact ceilDiv_eq_div n l.length hn hd

theorem chunks_getElem (n : Nat) (l : List Nat) (i : Nat)
    (hi : i < (l.length + n - 1) / n) :
    (chunks n l)[i]? = some ((l.drop (n * i)).take n) := by
  simp [chunks, List.getElem?_range hi]

theorem chunks_mem_length (n : Nat) (l : List Nat) (hn : 0 < n) (hd : l.length % n = 0)
    (c : List Nat) (hc : c ∈ chunks n l) : c.length = n := by
  simp only [chunks, List.mem_map, List.mem_range] at hc
  obtain ⟨i, hi, rfl⟩ := hc
  rw [ceilDiv_eq_div n l.length hn hd] at hi
  have h1 : n * (i + 1) ≤ n * (l.length / n) := Nat.mul_le_mul_left n hi
  have h2 : n * (l.length / n) = l.length := Nat.mul_div_cancel' (Nat.dvd_of_mod_eq_zero hd)
  have h3 : n * (i + 1) = n * i + n := by ring
  rw [h2, h3] at h1
  simp only [List.length_take, List.length_drop]
  omega

theorem collectOption_isSome {α : Type} (l : List (Option α))
    (h : ∀ x ∈ l, x.isSome = true) : (collectOption l).isSome = true := by
  induction l with
  | nil => rfl
  | cons a rest ih =>
    rcases a with _ | a
    · exact absurd (h none (by simp)) (by simp)
    · have hrest := ih (fun x hx => h x (by simp [hx]))
      rcases hc : collectOption rest with _ | res
      · rw [hc] at hrest
        simp at hrest
      · simp [collectOption, hc]

theorem collectOption_getElem {α : Type} : ∀ (l : List (Option α)) (res : List α),
    collectOption l = some res → res.length = l.length ∧ ∀ i : Nat, res[i]? = (l[i]?).join := by
  intro l
  induction l with
  | nil =>
    intro res h
    obtain rfl : ([] : List α) = res := Option.some.inj h
    exact ⟨rfl, fun i => by simp⟩
  | cons a rest ih =>
    intro res h
    rcases a with _ | a
    · exact absurd h (by simp [collectOption])
    · simp only [collectOption] at h
      rcases hc : collectOption rest with _ | r2
      · rw [hc] at h
        simp at h
      · rw [hc] at h
        simp only [Option.map_some', Option.some.injEq] at h
        obtain rfl := h.symm
        obtain ⟨ih1, ih2⟩ := ih r2 hc
        refine ⟨by simp [ih1], fun i => ?_⟩
        rcases i with _ | i
        · simp
        · simp [ih2 i]

theorem ipv4_of_chunk_isSome (c : List Nat) (h : c.length = 4) :
    (ipv4_of_chunk c).isSome = true := by
  rcases c with _ | ⟨a, _ | ⟨b, _ | ⟨x, _ | ⟨y, rest⟩⟩⟩⟩ <;> simp_all [ipv4_of_chunk]

theorem pair_ipv4_of_chunk_isSome (c : List Nat) (h : c.length = 8) :
    (pair_ipv4_of_chunk c).isSome = true := by
  rcases c with _ | ⟨a1, _ | ⟨a2, _ | ⟨a3, _ | ⟨a4, _ | ⟨a5, _ | ⟨a6, _ | ⟨a7, _ | ⟨a8, rest⟩⟩⟩⟩⟩⟩⟩⟩ <;>
    simp_all [pair_ipv4_of_chunk]

theorem ipv6_of_chunk_isSome (c : List Nat) (h : c.length = 16) :
    (ipv6_of_chunk c).isSome = true := by
  simp [ipv6_of_chunk, h]

theorem Decoder.read_slice_ok_inv (d : Decoder) (len : Nat) (s : List Nat) (d2 : Decoder)
    (h : d.read_slice len = (.ok s, d2)) :
    s = (d.buffer.drop d.index).take len ∧ s.length = len ∧
    d2 = ⟨d.buffer, d.index + len⟩ ∧ d.index + len ≤ d.buffer.length := by
  rcases d.read_slice_total len with (he | he) | ⟨h1, h2, he⟩ <;> rw [he] at h
  · exact absurd (congrArg Prod.fst h) (by simp)
  · exact absurd (congrArg Prod.fst h) (by simp)
  · have hb := congrArg Prod.fst h
    have hd := congrArg Prod.snd h
    simp only at hb hd
    refine ⟨(Except.ok.inj hb).symm, ?_, hd.symm, h2⟩
    rw [← Except.ok.inj hb]
    simp only [List.length_take, List.length_drop]
    omega

/-- C7: once the multiple-of-element-size check and read_slice have
succeeded, the per-chunk conversions and indexing of the three list reads
never fail: read_ipv4s and read_pair_ipv4s never reach the modelled indexing
panic (their result is never none), and read_ipv6s never returns the
internal-consistency Invalid-Encoding error of its try_into branch. -/
theorem C7_list_reads_internal_consistency (d : Decoder) (length : Nat) :
    (d.read_ipv4s length).isSome = true ∧
    (d.read_pair_ipv4s length).isSome = true ∧
    (d.read_ipv6s length).1 ≠ .error .invalidEncoding := by
  refine ⟨?_, ?_, ?_⟩
  · unfold Decoder.read_ipv4s
    split
    · rfl
    next hl =>
      rcases hr : d.read_slice length with ⟨rs | rs, ds⟩ <;> simp only [hr]
      · rfl
      · obtain ⟨hseq, hslen, hd2, hbound⟩ := d.read_slice_ok_inv length rs ds hr
        have hcol : (collectOption ((chunks 4 rs).map ipv4_of_chunk)).isSome = true := by
          apply collectOption_isSome
          intro x hx
          obtain ⟨c, hc, rfl⟩ := List.mem_map.mp hx
          exact ipv4_of_chunk_isSome c (chunks_mem_length 4 rs (by omega) (by omega) c hc)
        rcases hcc : collectOption ((chunks 4 rs).map ipv4_of_chunk) with _ | l
        · rw [hcc] at hcol
          simp at hcol
        · simp [hcc]
  · unfold Decoder.read_pair_ipv4s
    split
    · rfl
    next hl =>
      rcases hr : d.read_slice length with ⟨rs | rs, ds⟩ <;> simp only [hr]
      · rfl
      · obtain ⟨hseq, hslen, hd2, hbound⟩ := d.read_slice_ok_inv length rs ds hr
        have hcol : (collectOption ((chunks 8 rs).map pair_ipv4_of_chunk)).isSome = true := by
          apply collectOption_isSome
          intro x hx
          obtain ⟨c, hc, rfl⟩ := List.mem_map.mp hx
          exact pair_ipv4_of_chunk_isSome c (chunks_mem_length 8 rs (by omega) (by omega) c hc)
        rcases hcc : collectOption ((chunks 8 rs).map pair_ipv4_of_chunk) with _ | l
        · rw [hcc] at hcol
          simp at hcol
        · simp [hcc]
  · unfold Decoder.read_ipv6s
    split
    · simp
    next hl =>
      rcases hr : d.read_slice length with ⟨rs | rs, ds⟩ <;> simp only [hr]
      · rcases d.read_slice_total length with (ht | ht) | ⟨h1, h2, ht⟩
        · have hcmp := ht.symm.trans hr
          simp only [Prod.mk.injEq, Except.error.injEq] at hcmp
          obtain ⟨h1, h2⟩ := hcmp
          subst h1
          simp
        · have hcmp := ht.symm.trans hr
          simp only [Prod.mk.injEq, Except.error.injEq] at hcmp
          obtain ⟨h1, h2⟩ := hcmp
          subst h1
          simp
        · have hcmp := ht.symm.trans hr
          simp at hcmp
      · obtain ⟨hseq, hslen, hd2, hbound⟩ := d.read_slice_ok_inv length rs ds hr
        have hcol : (collectOption ((chunks 16 rs).map ipv6_of_chunk)).isSome = true := by
          apply collectOption_isSome
          intro x hx
          obtain ⟨c, hc, rfl⟩ := List.mem_map.mp hx
          exact ipv6_of_chunk_isSome c (chunks_mem_length 16 rs (by omega) (by omega) c hc)
        rcases hcc : collectOption ((chunks 16 rs).map ipv6_of_chunk) with _ | l
        · rw [hcc] at hcol
          simp at hcol
        · simp [hcc]

theorem take_drop_getElem (s : List Nat) (k m j : Nat) (hj : j < k) (hb : m + j < s.length) :
    ((s.drop m).take k)[j]? = some (s.getD (m + j) 0) := by
  rw [List.getElem?_take, if_pos hj, List.getElem?_drop, List.getD_eq_getElem?_getD,
    List.getElem?_eq_getElem hb]
  rfl

/-- C5: read_ipv4s fails with Not-Enough-Bytes when its length argument is
not a multiple of 4, leaving the cursor unchanged; otherwise (when the slice
read succeeds) it consumes exactly length bytes and returns length / 4
addresses, the i-th made of the consumed bytes at offsets 4i to 4i+3, that
is, the consecutive 4-byte groups in input order. -/
theorem C5_read_ipv4s_spec (d : Decoder) (length : Nat) :
    (length % 4 ≠ 0 → d.read_ipv4s length = some (.error .notEnoughBytes, d)) ∧
    (length % 4 = 0 → d.index + length ≤ USIZE_MAX → d.index + length ≤ d.buffer.length →
      ∃ l : List Ipv4Addr,
        d.read_ipv4s length = some (.ok l, ⟨d.buffer, d.index + length⟩) ∧
        l.length = length / 4 ∧
        ∀ i : Nat, i < length / 4 →
          l[i]? = some ⟨((d.buffer.drop d.index).take length).getD (4 * i) 0,
            ((d.buffer.drop d.index).take length).getD (4 * i + 1) 0,
            ((d.buffer.drop d.index).take length).getD (4 * i + 2) 0,
            ((d.buffer.drop d.index).take length).getD (4 * i + 3) 0⟩) := by
  constructor
  · intro hl
    simp [Decoder.read_ipv4s, hl]
  · intro hl h1 h2
    have hr := d.read_slice_of_ok length h1 h2
    set s : List Nat := (d.buffer.drop d.index).take length with hs
    have hslen : s.length = length := by
      rw [hs]
      simp only [List.length_take, List.length_drop]
      omega
    have hchunk : ∀ c ∈ chunks 4 s, c.length = 4 := fun c hc =>
      chunks_mem_length 4 s (by omega) (by omega) c hc
    have hcol : (collectOption ((chunks 4 s).map ipv4_of_chunk)).isSome = true := by
      apply collectOption_isSome
      intro x hx
      obtain ⟨c, hc, rfl⟩ := List.mem_map.mp hx
      exact ipv4_of_chunk_isSome c (hchunk c hc)
    rw [Option.isSome_iff_exists] at hcol
    obtain ⟨l, hcc⟩ := hcol
    obtain ⟨hclen, hcel⟩ := collectOption_getElem _ l hcc
    refine ⟨l, ?_, ?_, ?_⟩
    · simp only [Decoder.read_ipv4s, if_neg (by omega : ¬length % 4 ≠ 0), hr, hcc]
    · rw [hclen, List.length_map, chunks_length 4 s (by omega) (by omega), hslen]
    · intro i hi
      have hci : (chunks 4 s)[i]? = some ((s.drop (4 * i)).take 4) := by
        apply chunks_getElem
        rw [ceilDiv_eq_div 4 s.length (by omega) (by omega)]
        omega
      have hjoin := hcel i
      rw [List.getElem?_map, hci] at hjoin
      simp only [Option.map_some'] at hjoin
      rw [hjoin]
      show ipv4_of_chunk ((s.drop (4 * i)).take 4) = _
      have e0 := take_drop_getElem s 4 (4 * i) 0 (by omega) (by omega)
      have e1 := take_drop_getElem s 4 (4 * i) 1 (by omega) (by omega)
      have e2 := take_drop_getElem s 4 (4 * i) 2 (by omega) (by omega)
      have e3 := take_drop_getElem s 4 (4 * i) 3 (by omega) (by omega)
      unfold ipv4_of_chunk
      rw [e0, e1, e2, e3]
      norm_num

/-- Witness for C5: a twelve-byte buffer yields exactly three addresses in
input order, and length 10 is rejected. -/
theorem C5_read_ipv4s_spec_witness :
    (Decoder.new [10, 20, 30, 40, 50, 60, 70, 80, 90, 100, 110, 120]).read_ipv4s 10 =
      some (.error .notEnoughBytes,
        Decoder.new [10, 20, 30, 40, 50, 60, 70, 80, 90, 100, 110, 120]) ∧
    (Decoder.new [10, 20, 30, 40, 50, 60, 70, 80, 90, 100, 110, 120]).read_ipv4s 12 =
      some (.ok [Ipv4Addr.mk 10 20 30 40, Ipv4Addr.mk 50 60 70 80, Ipv4Addr.mk 90 100 110 120],
        ⟨[10, 20, 30, 40, 50, 60, 70, 80, 90, 100, 110, 120], 12⟩) := by
  constructor
  · exact (C5_read_ipv4s_spec
      (Decoder.new [10, 20, 30, 40, 50, 60, 70, 80, 90, 100, 110, 120]) 10).1 (by decide)
  · obtain ⟨l, h1, h2, h3⟩ := (C5_read_ipv4s_spec
      (Decoder.new [10, 20, 30, 40, 50, 60, 70, 80, 90, 100, 110, 120]) 12).2
      (by decide) (by decide) (by decide)
    have hl : l = [Ipv4Addr.mk 10 20 30 40, Ipv4Addr.mk 50 60 70 80,
        Ipv4Addr.mk 90 100 110 120] := by
      have h2n : l.length = 3 := by
        rw [h2]
      apply List.ext_getElem?
      intro n
      rcases n with _ | (_ | (_ | m))
      · simpa using h3 0 (by decide)
      · simpa using h3 1 (by decide)
      · simpa using h3 2 (by decide)
      · rw [List.getElem?_eq_none (by omega), List.getElem?_eq_none (by simp)]
    rw [h1, hl]
    rfl

/-!  First-nul scanning lemmas for the fixed-size string fields. -/

theorem position_lt_length (p : Nat → Bool) : ∀ (l : List Nat) (n : Nat),
    position p l = some n → n < l.length := by
  intro l
  induction l with
  | nil => intro n h; exact absurd h (by simp [position])
  | cons b rest ih =>
    intro n h
    simp only [position] at h
    split at h
    · obtain rfl := Option.some.inj h
      simp
    · rcases hp : position p rest with _ | m <;> rw [hp] at h
      · simp at h
      · simp only [Option.map_some', Option.some.injEq] at h
        subst h
        have := ih m hp
        simp
        omega

theorem position_getElem (p : Nat → Bool) : ∀ (l : List Nat) (n : Nat),
    position p l = some n → ∃ x, l[n]? = some x ∧ p x = true := by
  intro l
  induction l with
  | nil => intro n h; exact absurd h (by simp [position])
  | cons b rest ih =>
    intro n h
    simp only [position] at h
    split at h
    · obtain rfl := Option.some.inj h
      exact ⟨b, by simp, by assumption⟩
    · rcases hp : position p rest with _ | m <;> rw [hp] at h
      · simp at h
      · simp only [Option.map_some', Option.some.injEq] at h
        subst h
        obtain ⟨x, hx, hpx⟩ := ih m hp
        exact ⟨x, by simpa using hx, hpx⟩

theorem position_take (p : Nat → Bool) : ∀ (l : List Nat) (n : Nat),
    position p l = some n → position p (l.take (n + 1)) = some n := by
  intro l
  induction l with
  | nil => intro n h; exact absurd h (by simp [position])
  | cons b rest ih =>
    intro n h
    simp only [position] at h
    split at h
    · obtain rfl := Option.some.inj h
      simp only [List.take_succ_cons, List.take_zero, position]
      rw [if_pos (by assumption)]
    · rcases hp : position p rest with _ | m <;> rw [hp] at h
      · simp at h
      · simp only [Option.map_some', Option.some.injEq] at h
        subst h
        simp only [List.take_succ_cons, position]
        rw [if_neg (by assumption), ih m hp]
        rfl

theorem from_bytes_with_nul_of_position (l : List Nat) (n : Nat)
    (h : position (fun b => decide (b = 0)) l = some n) :
    from_bytes_with_nul (l.take (n + 1)) = some (l.take (n + 1)) := by
  have hlt := position_lt_length _ l n h
  have hlen : (l.take (n + 1)).length = n + 1 := by
    simp only [List.length_take]
    omega
  obtain ⟨x, hx, hpx⟩ := position_getElem _ l n h
  have hx0 : x = 0 := by simpa using hpx
  have hcond : (l.take (n + 1)).getLast? = some 0 ∧
      position (fun b => decide (b = 0)) (l.take (n + 1)) =
        some ((l.take (n + 1)).length - 1) := by
    constructor
    · rw [List.getLast?_eq_getElem?, hlen, Nat.add_sub_cancel, List.getElem?_take,
        if_pos (Nat.lt_succ_self n), hx, hx0]
    · rw [position_take _ l n h, hlen, Nat.add_sub_cancel]
  unfold from_bytes_with_nul
  rw [if_pos hcond]

/-- C6: for a MAX-byte field whose fixed-width read succeeds, both
read_cstring and read_const_string advance the index by exactly MAX; a first
nul at index 0 gives no value (not an error); a first nul at index n greater
than 0 gives the bytes up to and including the nul, the string variant
validating them as UTF-8 and failing with the encoding error otherwise; and
no nul anywhere in the field gives no value rather than an error. -/
theorem C6_fixed_string_fields (d : Decoder) (MAX : Nat) (bytes : List Nat) (d2 : Decoder)
    (h : d.read MAX = (.ok bytes, d2)) :
    d2.index = d.index + MAX ∧
    (position (fun b => decide (b = 0)) bytes = some 0 →
      d.read_cstring MAX = (.ok none, d2) ∧ d.read_const_string MAX = (.ok none, d2)) ∧
    (∀ n : Nat, position (fun b => decide (b = 0)) bytes = some n → n ≠ 0 →
      d.read_cstring MAX = (.ok (some (bytes.take (n + 1))), d2) ∧
      (utf8_validate (bytes.take (n + 1)) = true →
        d.read_const_string MAX = (.ok (some (bytes.take (n + 1))), d2)) ∧
      (utf8_validate (bytes.take (n + 1)) = false →
        d.read_const_string MAX = (.error .invalidEncoding, d2))) ∧
    (position (fun b => decide (b = 0)) bytes = none →
      d.read_cstring MAX = (.ok none, d2) ∧ d.read_const_string MAX = (.ok none, d2)) := by
  obtain ⟨hbytes, hblen, hd2, hbound⟩ := d.read_ok_inv MAX bytes d2 h
  refine ⟨by rw [hd2], ?_, ?_, ?_⟩
  · intro hp
    constructor
    · simp [Decoder.read_cstring, h, hp]
    · simp [Decoder.read_const_string, h, hp]
  · intro n hp hn
    refine ⟨?_, fun hu => ?_, fun hu => ?_⟩
    · simp only [Decoder.read_cstring, h, hp]
      rw [if_neg hn, from_bytes_with_nul_of_position bytes n hp]
    · simp only [Decoder.read_const_string, h, hp]
      rw [if_neg hn, if_pos hu]
    · simp only [Decoder.read_const_string, h, hp]
      rw [if_neg hn, if_neg (by simp [hu])]
      rfl
  · intro hp
    constructor
    · simp [Decoder.read_cstring, h, hp]
    · simp [Decoder.read_const_string, h, hp]

/-- Witness for C6: the field [97, 98, 0, 99] has its first nul at index 2
and decodes to the bytes through the nul in both variants; a leading-nul
field and a nul-free field decode to no value; in every case the cursor ends
at index MAX. -/
theorem C6_fixed_string_fields_witness :
    (Decoder.new [97, 98, 0, 99]).read_cstring 4 =
      (.ok (some [97, 98, 0]), ⟨[97, 98, 0, 99], 4⟩) ∧
    (Decoder.new [97, 98, 0, 99]).read_const_string 4 =
      (.ok (some [97, 98, 0]), ⟨[97, 98, 0, 99], 4⟩) ∧
    (Decoder.new [0, 5]).read_const_string 2 = (.ok none, ⟨[0, 5], 2⟩) ∧
    (Decoder.new [7, 8]).read_const_string 2 = (.ok none, ⟨[7, 8], 2⟩) :=
  ⟨((C6_fixed_string_fields (Decoder.new [97, 98, 0, 99]) 4 [97, 98, 0, 99]
      ⟨[97, 98, 0, 99], 4⟩ (by decide)).2.2.1 2 (by decide) (by decide)).1,
   (((C6_fixed_string_fields (Decoder.new [97, 98, 0, 99]) 4 [97, 98, 0, 99]
      ⟨[97, 98, 0, 99], 4⟩ (by decide)).2.2.1 2 (by decide) (by decide)).2.1 (by decide)),
   ((C6_fixed_string_fields (Decoder.new [0, 5]) 2 [0, 5]
      ⟨[0, 5], 2⟩ (by decide)).2.1 (by decide)).2,
   ((C6_fixed_string_fields (Decoder.new [7, 8]) 2 [7, 8]
      ⟨[7, 8], 2⟩ (by decide)).2.2.2 (by decide)).2⟩

theorem Decoder.read_u8_of_byte (d : Decoder) (b : Nat) (hb : d.buffer[d.index]? = some b)
    (hm : d.index + 1 ≤ USIZE_MAX) :
    d.read_u8 = (.ok b, ⟨d.buffer, d.index + 1⟩) := by
  have hlt : d.index < d.buffer.length := by
    by_contra hc
    rw [List.getElem?_eq_none (by omega)] at hb
    cases hb
  have hr := d.read_of_ok 1 hm (by omega)
  have hdrop : d.buffer.drop d.index = d.buffer[d.index] :: d.buffer.drop (d.index + 1) :=
    List.drop_eq_getElem_cons hlt
  have hbe : d.buffer[d.index] = b := by
    rw [List.getElem?_eq_getElem hlt] at hb
    exact Option.some.inj hb
  rw [hdrop, hbe] at hr
  simp only [Decoder.read_u8, hr, List.take_succ_cons, List.take_zero]
  simp [from_be_bytes]

/-- C8: read_bool succeeds exactly when read_u8 succeeds (same post-state,
same error), and the decoded value is true exactly when the byte under the
cursor equals 1; every other byte value, 0 and every nonzero value other
than 1 alike, decodes to false and is never an error. -/
theorem C8_read_bool_spec (d : Decoder) :
    (d.read_bool).2 = (d.read_u8).2 ∧
    (d.read_bool).1.isOk = (d.read_u8).1.isOk ∧
    (∀ e, (d.read_bool).1 = .error e ↔ (d.read_u8).1 = .error e) ∧
    (∀ b, d.buffer[d.index]? = some b → d.index + 1 ≤ USIZE_MAX →
      (d.read_bool).1 = .ok (decide (b = 1))) := by
  refine ⟨?_, ?_, ?_, ?_⟩
  · rcases hr : d.read_u8 with ⟨r | r, d2⟩ <;> simp only [Decoder.read_bool, hr]
  · rcases hr : d.read_u8 with ⟨r | r, d2⟩ <;> simp only [Decoder.read_bool, hr] <;> rfl
  · intro e
    rcases hr : d.read_u8 with ⟨r | r, d2⟩ <;> simp only [Decoder.read_bool, hr] <;> simp
  · intro b hb hm
    simp only [Decoder.read_bool, d.read_u8_of_byte b hb hm]

/-- Witness for C8: byte 1 decodes to true, bytes 0 and 2 decode to
false. -/
theorem C8_read_bool_spec_witness :
    ((Decoder.new [1]).read_bool).1 = .ok true ∧
    ((Decoder.new [0]).read_bool).1 = .ok false ∧
    ((Decoder.new [2]).read_bool).1 = .ok false :=
  ⟨(C8_read_bool_spec (Decoder.new [1])).2.2.2 1 (by decide) (by decide),
   (C8_read_bool_spec (Decoder.new [0])).2.2.2 0 (by decide) (by decide),
   (C8_read_bool_spec (Decoder.new [2])).2.2.2 2 (by decide) (by decide)⟩

/-- C9 counterexample: over the three-byte buffer [10, 20, 30], reading one
byte succeeds and the remaining-bytes view is [20, 30], the suffix starting
at position N = 1; it is not the suffix starting at offset
original length minus N = 2, which is [30], so the view does not start at
original length minus N. -/
theorem C9_counterexample :
    (Decoder.new [10, 20, 30]).read 1 = (.ok [10], ⟨[10, 20, 30], 1⟩) ∧
    Decoder.remaining ⟨[10, 20, 30], 1⟩ = some [20, 30] ∧
    Decoder.remaining ⟨[10, 20, 30], 1⟩ ≠
      some (([10, 20, 30] : List Nat).drop (([10, 20, 30] : List Nat).length - 1)) :=
  ⟨by decide, by decide, by decide⟩

/-- C9 amended: after a fresh cursor over a buffer successfully reads N
bytes, the remaining-bytes view is the suffix of the buffer starting at
position N, whose length is the original length minus N; the view spans
exactly from the current position to the buffer end.  The introspection
takes the cursor immutably, so it cannot advance the position. -/
theorem C9_remaining_after_read (buf bytes : List Nat) (N : Nat) (d2 : Decoder)
    (h : (Decoder.new buf).read N = (.ok bytes, d2)) :
    d2.remaining = some (buf.drop N) ∧
    (buf.drop N).length = buf.length - N ∧
    d2.buffer = buf ∧ d2.index = N ∧
    d2.remaining = some (d2.buffer.drop d2.index) := by
  obtain ⟨hbytes, hblen, hd2, hbound⟩ := (Decoder.new buf).read_ok_inv N bytes d2 h
  have hb : (Decoder.new buf).buffer = buf := rfl
  have hi : (Decoder.new buf).index = 0 := rfl
  rw [hb, hi] at hd2 hbound
  subst hd2
  have hrem : Decoder.remaining ⟨buf, 0 + N⟩ = some (buf.drop N) := by
    unfold Decoder.remaining
    rw [if_pos (by simpa using hbound)]
    simp
  refine ⟨hrem, by simp, rfl, by simp, by simpa using hrem⟩

/-- Witness for C9 amended: reading one byte of a three-byte buffer leaves
the two-byte suffix starting at position 1. -/
theorem C9_remaining_after_read_witness :
    Decoder.remaining ⟨[10, 20, 30], 1⟩ = some (([10, 20, 30] : List Nat).drop 1) ∧
    (([10, 20, 30] : List Nat).drop 1).length = ([10, 20, 30] : List Nat).length - 1 :=
  ⟨(C9_remaining_after_read [10, 20, 30] [10] 1 ⟨[10, 20, 30], 1⟩ (by decide)).1,
   (C9_remaining_after_read [10, 20, 30] [10] 1 ⟨[10, 20, 30], 1⟩ (by decide)).2.1⟩

/-- C10: a zero-length read always succeeds, even when the buffer is fully
consumed: read 0 returns the empty array, read_slice 0 the empty slice and
read_string 0 the empty string, each leaving the cursor unchanged. -/
theorem C10_zero_length_reads (d : Decoder) (h1 : d.index ≤ d.buffer.length)
    (h2 : d.index ≤ USIZE_MAX) :
    d.read 0 = (.ok [], d) ∧ d.read_slice 0 = (.ok [], d) ∧
    d.read_string 0 = (.ok [], d) := by
  have hr := d.read_of_ok 0 (by omega) (by omega)
  have hs := d.read_slice_of_ok 0 (by omega) (by omega)
  simp only [List.take_zero] at hr hs
  have hd : (⟨d.buffer, d.index + 0⟩ : Decoder) = d := rfl
  rw [hd] at hr hs
  refine ⟨hr, hs, ?_⟩
  simp only [Decoder.read_string, hs]
  rfl

/-- Witness for C10: the zero-length reads at a fully consumed one-byte
buffer. -/
theorem C10_zero_length_reads_witness :
    Decoder.read ⟨[1], 1⟩ 0 = (.ok [], ⟨[1], 1⟩) ∧
    Decoder.read_slice ⟨[1], 1⟩ 0 = (.ok [], ⟨[1], 1⟩) ∧
    Decoder.read_string ⟨[1], 1⟩ 0 = (.ok [], ⟨[1], 1⟩) :=
  C10_zero_length_reads ⟨[1], 1⟩ (by decide) (by decide)
